import Mathlib

/-!
Shallow embedding of the `chain` function (sequential async coordinator)
from the Utils repository, together with proofs of its specified
properties.

The source function:

  function chain(...values){
    if(1 === values.length && Array.isArray(values[0]))
      values = [...values[0]];
    let promise = Promise.resolve();
    let rejection = null;
    const results = [];
    for(const value of values)
      promise = promise.then(result => {
        results.push(result);
        return "function" === typeof value ? value() : value;
      }).catch(error => {
        if(null === rejection)
          rejection = null == error ? true : error;
        return Promise.reject(error);
      });
    return promise.then(result => {
      results.push(result);
      results.shift();
      return null !== rejection
        ? Promise.reject(rejection)
        : Promise.resolve(results);
    });
  }

Because execution is strictly sequential (each stage of the promise chain
runs only after its predecessor settles), the whole run is a pure fold
over the list of values.  A JavaScript value is modelled by `JSVal`; a
callable step is modelled by the outcome its invocation produces:
`funcOk v` is a function whose call returns / resolves to `v`, and
`funcFail e` is a function whose call throws `e` or returns a promise
that rejects with `e` (the two are indistinguishable to `.then`, hence
one constructor).  Invocations of callables are recorded in a trace so
that "the callable was never invoked" is statable.
-/

/-- A JavaScript value as seen by `chain`.  `undef` and `null` are the
two nullish values (`null == x` in JS).  `funcOk v` models a callable
whose invocation produces `v`; `funcFail e` models a callable whose
invocation throws or rejects with `e`. -/
inductive JSVal : Type where
  | undef : JSVal
  | null : JSVal
  | bool : Bool → JSVal
  | num : Int → JSVal
  | str : String → JSVal
  | arr : List JSVal → JSVal
  | funcOk : JSVal → JSVal
  | funcFail : JSVal → JSVal

/-- The JS test `typeof v === "function"`. -/
def JSVal.isFunction : JSVal → Bool
  | .funcOk _ => true
  | .funcFail _ => true
  | _ => false

/-- The JS test `null == v` (loose equality: true for `null` and `undefined`). -/
def JSVal.isNullish : JSVal → Bool
  | .undef => true
  | .null => true
  | _ => false

/-- A failing Deferred step (callable whose invocation throws/rejects). -/
def JSVal.isFail : JSVal → Bool
  | .funcFail _ => true
  | _ => false

/-- The value a succeeding step produces: a callable is resolved using its
return value, any other value is resolved as itself. -/
def JSVal.produce : JSVal → JSVal
  | .funcOk v => v
  | v => v

/-- The state of one run of `chain`: the current promise of the chain
(`Except.ok v` = fulfilled with `v`, `Except.error e` = rejected with
`e`), the closure variables `rejection` and `results`, and the trace of
indices of the callables invoked so far. -/
structure RunState : Type where
  promise : Except JSVal JSVal
  rejection : Option JSVal
  results : List JSVal
  invoked : List Nat

/-- The state before the loop: `promise = Promise.resolve()` (fulfilled
with `undefined`), `rejection = null`, `results = []`. -/
def initState : RunState :=
  { promise := Except.ok JSVal.undef
    rejection := none
    results := []
    invoked := [] }

/-- One `.then(result => {...})` stage of the loop body for the step
`v` at position `i`.  It runs only when the incoming promise is
fulfilled: it pushes the predecessor's result, then evaluates the step
(invoking it when it is a callable); a rejected incoming promise passes
through untouched. -/
def thenStage (i : Nat) (v : JSVal) (st : RunState) : RunState :=
  match st.promise with
  | Except.ok result =>
    let results := st.results ++ [result]
    match v with
    | JSVal.funcOk w =>
      { st with promise := Except.ok w, results := results,
                invoked := st.invoked ++ [i] }
    | JSVal.funcFail e =>
      { st with promise := Except.error e, results := results,
                invoked := st.invoked ++ [i] }
    | w => { st with promise := Except.ok w, results := results }
  | Except.error _ => st

/-- The `.catch(error => {...})` stage of the loop body.  It runs only
when the incoming promise is rejected: if no rejection has been recorded
yet it records the error (a nullish error is replaced by the sentinel
`true`), and it re-raises the original error so the chain stays
rejected. -/
def catchStage (st : RunState) : RunState :=
  match st.promise with
  | Except.ok _ => st
  | Except.error e =>
    let recorded := if e.isNullish then JSVal.bool true else e
    match st.rejection with
    | none => { st with rejection := some recorded }
    | some _ => st

/-- One iteration of the `for` loop: `promise = promise.then(...).catch(...)`. -/
def stepStage (i : Nat) (v : JSVal) (st : RunState) : RunState :=
  catchStage (thenStage i v st)

/-- Run the loop over the remaining values, `i` being the position of the
first of them in the full list. -/
def runFrom (i : Nat) (st : RunState) : List JSVal → RunState
  | [] => st
  | v :: vs => runFrom (i + 1) (stepStage i v st) vs

/-- The state after the whole `for` loop, starting from `initState`. -/
def chainRun (values : List JSVal) : RunState :=
  runFrom 0 initState values

/-- The final `promise.then(result => {...})` stage: on a fulfilled
chain it pushes the last result, shifts off the leading placeholder and
returns the results unless a rejection was recorded; on a rejected chain
the rejection passes through untouched. -/
def finalStage (st : RunState) : Except JSVal (List JSVal) :=
  match st.promise with
  | Except.ok result =>
    let results := (st.results ++ [result]).drop 1
    match st.rejection with
    | some r => Except.error r
    | none => Except.ok results
  | Except.error e => Except.error e

/-- The outcome of `chain` on an already-normalized list of steps
(the body after the array-unpacking test). -/
def chainSteps (values : List JSVal) : Except JSVal (List JSVal) :=
  finalStage (chainRun values)

/-- The entry normalization: a single argument that is an array is
unpacked as the list of values. -/
def normalizeArgs : List JSVal → List JSVal
  | [JSVal.arr xs] => xs
  | values => values

/-- The outcome of `chain(...args)`. -/
def chain (args : List JSVal) : Except JSVal (List JSVal) :=
  chainSteps (normalizeArgs args)

/-- Positions of the callable steps of a list, the head of the list
sitting at position `i`. -/
def fnIdx (i : Nat) : List JSVal → List Nat
  | [] => []
  | v :: vs => (if v.isFunction then [i] else []) ++ fnIdx (i + 1) vs

theorem JSVal.produce_of_not_function {v : JSVal} (h : v.isFunction = false) :
    v.produce = v := by
  cases v <;> simp_all [JSVal.isFunction, JSVal.produce]

theorem JSVal.not_fail_of_not_function {v : JSVal} (h : v.isFunction = false) :
    v.isFail = false := by
  cases v <;> simp_all [JSVal.isFunction, JSVal.isFail]

/-- Effect of one loop iteration on a fulfilled chain when the step does
not fail: the predecessor result is appended, the step's produced value
becomes the new fulfilment value, and a callable step is invoked. -/
theorem stepStage_ok (i : Nat) {v : JSVal} (h : v.isFail = false)
    (r : JSVal) (rej : Option JSVal) (res : List JSVal) (inv : List Nat) :
    stepStage i v ⟨Except.ok r, rej, res, inv⟩ =
      ⟨Except.ok v.produce, rej, res ++ [r],
        inv ++ if v.isFunction then [i] else []⟩ := by
  cases v <;>
    simp_all [stepStage, thenStage, catchStage, JSVal.produce, JSVal.isFunction,
      JSVal.isFail]

/-- Effect of one loop iteration on a fulfilled chain when the step is a
failing callable: the chain becomes rejected with the step's error and
the error (or the sentinel, for a nullish error) is recorded. -/
theorem stepStage_fail (i : Nat) (e r : JSVal) (res : List JSVal) (inv : List Nat) :
    stepStage i (JSVal.funcFail e) ⟨Except.ok r, none, res, inv⟩ =
      ⟨Except.error e, some (if e.isNullish then JSVal.bool true else e),
        res ++ [r], inv ++ [i]⟩ := by
  simp [stepStage, thenStage, catchStage]

/-- A rejected chain with a recorded rejection is a fixed point of the
loop body: the success handler is skipped and the catch handler
re-raises without touching anything. -/
theorem stepStage_fix (i : Nat) (v : JSVal) {st : RunState} {e w : JSVal}
    (hp : st.promise = Except.error e) (hr : st.rejection = some w) :
    stepStage i v st = st := by
  obtain ⟨p, rej, res, inv⟩ := st
  simp only at hp hr
  subst hp; subst hr
  rfl

/-- A rejected chain with a recorded rejection stays untouched for the
rest of the loop. -/
theorem runFrom_fix (vs : List JSVal) (i : Nat) {st : RunState} {e w : JSVal}
    (hp : st.promise = Except.error e) (hr : st.rejection = some w) :
    runFrom i st vs = st := by
  induction vs generalizing i with
  | nil => rfl
  | cons v vs ih =>
    rw [runFrom, stepStage_fix i v hp hr]
    exact ih (i + 1)

/-- Splitting the loop over an append of step lists. -/
theorem runFrom_append (l₁ l₂ : List JSVal) (i : Nat) (st : RunState) :
    runFrom i st (l₁ ++ l₂) = runFrom (i + l₁.length) (runFrom i st l₁) l₂ := by
  induction l₁ generalizing i st with
  | nil => simp [runFrom]
  | cons v vs ih =>
    rw [List.cons_append, runFrom, runFrom, ih, List.length_cons]
    congr 1
    omega

/-- The loop body never erases a recorded rejection. -/
theorem stepStage_rejection (i : Nat) (v : JSVal) (st : RunState) (w : JSVal)
    (h : st.rejection = some w) : (stepStage i v st).rejection = some w := by
  obtain ⟨p, rej, res, inv⟩ := st
  cases p <;> cases v <;> simp_all [stepStage, thenStage, catchStage]

/-- The loop never erases a recorded rejection. -/
theorem runFrom_rejection (vs : List JSVal) (i : Nat) (st : RunState) (w : JSVal)
    (h : st.rejection = some w) : (runFrom i st vs).rejection = some w := by
  induction vs generalizing i st with
  | nil => exact h
  | cons v vs ih => exact ih (i + 1) _ (stepStage_rejection i v st w h)

/-- Invariant of the loop body: a fulfilled chain has no recorded
rejection (a rejection is only ever recorded while the chain is and
stays rejected). -/
theorem stepStage_inv (i : Nat) (v : JSVal) (st : RunState)
    (h : ∀ x, st.promise = Except.ok x → st.rejection = none) :
    ∀ x, (stepStage i v st).promise = Except.ok x →
      (stepStage i v st).rejection = none := by
  obtain ⟨p, rej, res, inv⟩ := st
  cases p with
  | ok r =>
    have hrej : rej = none := h r rfl
    subst hrej
    cases v <;> simp [stepStage, thenStage, catchStage]
  | error e =>
    cases rej <;> simp [stepStage, thenStage, catchStage]

/-- Invariant of the loop: a fulfilled chain has no recorded rejection. -/
theorem runFrom_inv (vs : List JSVal) (i : Nat) (st : RunState)
    (h : ∀ x, st.promise = Except.ok x → st.rejection = none) :
    ∀ x, (runFrom i st vs).promise = Except.ok x →
      (runFrom i st vs).rejection = none := by
  induction vs generalizing i st with
  | nil => exact h
  | cons v vs ih => exact ih (i + 1) _ (stepStage_inv i v st h)

/-- Characterization of the loop over a list of non-failing steps from a
fulfilled state: the chain stays fulfilled, the recorded rejection is
untouched, the results collect the incoming value followed by every
step's produced value but the last (which is still held by the promise),
and exactly the callable steps are invoked, in order. -/
theorem runFrom_ok :
    ∀ (vs : List JSVal), (∀ v ∈ vs, v.isFail = false) →
    ∀ (i : Nat) (r : JSVal) (rej : Option JSVal) (res : List JSVal)
      (inv : List Nat),
    ∃ last res2,
      runFrom i ⟨Except.ok r, rej, res, inv⟩ vs
        = ⟨Except.ok last, rej, res2, inv ++ fnIdx i vs⟩ ∧
      res2 ++ [last] = res ++ r :: vs.map JSVal.produce := by
  intro vs
  induction vs with
  | nil =>
    intro _ i r rej res inv
    exact ⟨r, res, by simp [runFrom, fnIdx], by simp⟩
  | cons v vs ih =>
    intro h i r rej res inv
    have hv : v.isFail = false := h v (List.mem_cons_self v vs)
    have hvs : ∀ u ∈ vs, u.isFail = false :=
      fun u hu => h u (List.mem_cons_of_mem v hu)
    rw [runFrom, stepStage_ok i hv]
    obtain ⟨last, res2, heq, hres⟩ :=
      ih hvs (i + 1) v.produce rej (res ++ [r])
        (inv ++ if v.isFunction then [i] else [])
    refine ⟨last, res2, ?_, ?_⟩
    · rw [heq, fnIdx, List.append_assoc]
    · rw [hres, List.append_assoc, List.singleton_append, List.map_cons]

/-- Outcome of `chain` on a normalized list with no failing step. -/
theorem chainSteps_all_ok (vs : List JSVal) (h : ∀ v ∈ vs, v.isFail = false) :
    chainSteps vs = Except.ok (vs.map JSVal.produce) := by
  obtain ⟨last, res2, heq, hres⟩ := runFrom_ok vs h 0 JSVal.undef none [] []
  have hrun : chainRun vs = ⟨Except.ok last, none, res2, fnIdx 0 vs⟩ := by
    rw [chainRun, initState, heq, List.nil_append]
  rw [chainSteps, hrun, finalStage]
  simp only [List.nil_append] at hres
  simp [hres]

/-- The full run state for a list whose first failing step is
`funcFail e` at position `pre.length`: the chain ends rejected with the
original `e`, the recorded rejection is `e` itself (or the sentinel for
a nullish `e`), and exactly the callables of the successful leading part
plus the failing step itself were invoked. -/
theorem chainRun_first_fail (pre : List JSVal) (e : JSVal) (post : List JSVal)
    (h : ∀ v ∈ pre, v.isFail = false) :
    ∃ res2,
      chainRun (pre ++ JSVal.funcFail e :: post)
        = ⟨Except.error e,
           some (if e.isNullish then JSVal.bool true else e),
           res2, fnIdx 0 pre ++ [pre.length]⟩ := by
  obtain ⟨last, res2, heq, hres⟩ := runFrom_ok pre h 0 JSVal.undef none [] []
  rw [chainRun, initState, runFrom_append, heq, runFrom, stepStage_fail,
    runFrom_fix post _ rfl rfl]
  exact ⟨res2 ++ [last], by simp⟩

/-- Outcome of `chain` on a normalized list whose first failing step is
`funcFail e`: the surfaced error is the original `e`, untouched. -/
theorem chainSteps_first_fail (pre : List JSVal) (e : JSVal) (post : List JSVal)
    (h : ∀ v ∈ pre, v.isFail = false) :
    chainSteps (pre ++ JSVal.funcFail e :: post) = Except.error e := by
  obtain ⟨res2, hrun⟩ := chainRun_first_fail pre e post h
  rw [chainSteps, hrun, finalStage]

/-- Callable positions of a list starting at `i` are below `i` plus its
length. -/
theorem fnIdx_mem_lt :
    ∀ (vs : List JSVal) (i j : Nat), j ∈ fnIdx i vs → j < i + vs.length := by
  intro vs
  induction vs with
  | nil => intro i j hj; simp [fnIdx] at hj
  | cons v vs ih =>
    intro i j hj
    rw [fnIdx, List.mem_append] at hj
    rcases hj with hj | hj
    · rcases hv : v.isFunction with _ | _ <;> rw [hv] at hj <;> simp at hj
      rw [List.length_cons]
      omega
    · have := ih (i + 1) j hj
      rw [List.length_cons]
      omega

/-- A rejected outcome of the loop started from a clean fulfilled state
means some step is a failing callable carrying exactly that error. -/
theorem runFrom_error_mem :
    ∀ (vs : List JSVal) (i : Nat) (r : JSVal) (res : List JSVal)
      (inv : List Nat) (e : JSVal),
    (runFrom i ⟨Except.ok r, none, res, inv⟩ vs).promise = Except.error e →
    JSVal.funcFail e ∈ vs := by
  intro vs
  induction vs with
  | nil => intro i r res inv e hp; simp [runFrom] at hp
  | cons v vs ih =>
    intro i r res inv e hp
    rcases hv : v.isFail with _ | _
    · rw [runFrom, stepStage_ok i hv] at hp
      exact List.mem_cons_of_mem v (ih (i + 1) _ _ _ e hp)
    · cases v with
      | funcFail e0 =>
        rw [runFrom, stepStage_fail, runFrom_fix vs _ rfl rfl] at hp
        simp only at hp
        cases hp
        exact List.mem_cons_self _ _
      | _ => simp [JSVal.isFail] at hv

/-- C1: for every input sequence consisting only of Value (non-callable)
steps, `chain` fulfills with a result list equal to the input sequence,
unchanged and in the same order — both when the sequence is supplied as
the single-array argument form (which can express every sequence) and as
the normalized step list itself. -/
theorem chain_value_steps_identity (vs : List JSVal)
    (h : ∀ v ∈ vs, v.isFunction = false) :
    chain [JSVal.arr vs] = Except.ok vs ∧ chainSteps vs = Except.ok vs := by
  have hfail : ∀ v ∈ vs, v.isFail = false :=
    fun v hv => JSVal.not_fail_of_not_function (h v hv)
  have hmap : vs.map JSVal.produce = vs := by
    have hcg : ∀ v ∈ vs, JSVal.produce v = id v :=
      fun v hv => JSVal.produce_of_not_function (h v hv)
    rw [List.map_congr_left hcg, List.map_id]
  have hsteps : chainSteps vs = Except.ok vs := by
    rw [chainSteps_all_ok vs hfail, hmap]
  exact ⟨hsteps, hsteps⟩

theorem chain_value_steps_identity_witness :
    (∀ v ∈ [JSVal.num 1, JSVal.str "a", JSVal.bool false],
      v.isFunction = false) ∧
    chain [JSVal.arr [JSVal.num 1, JSVal.str "a", JSVal.bool false]]
      = Except.ok [JSVal.num 1, JSVal.str "a", JSVal.bool false] :=
  ⟨by decide, (chain_value_steps_identity _ (by decide)).1⟩

/-- C2: when the step at position `pre.length` (step k, 1-indexed, with
k = pre.length + 1) is a failing Deferred and all prior steps succeed,
no callable at any later position is ever invoked: every invoked
position is at most that of the failing step. -/
theorem chain_no_invocation_after_failure (pre : List JSVal) (e : JSVal)
    (post : List JSVal) (h : ∀ v ∈ pre, v.isFail = false) :
    ∀ j, pre.length < j →
      j ∉ (chainRun (pre ++ JSVal.funcFail e :: post)).invoked := by
  obtain ⟨res2, hrun⟩ := chainRun_first_fail pre e post h
  have hinv : (chainRun (pre ++ JSVal.funcFail e :: post)).invoked
      = fnIdx 0 pre ++ [pre.length] := by rw [hrun]
  intro j hj hmem
  rw [hinv, List.mem_append, List.mem_singleton] at hmem
  rcases hmem with hmem | hmem
  · have := fnIdx_mem_lt pre 0 j hmem
    omega
  · omega

theorem chain_no_invocation_after_failure_witness :
    (∀ v ∈ [JSVal.num 1], v.isFail = false) ∧ (1 : Nat) < 2 ∧
    2 ∉ (chainRun ([JSVal.num 1] ++ JSVal.funcFail (JSVal.str "boom")
        :: [JSVal.funcOk (JSVal.num 9)])).invoked :=
  ⟨by decide, by decide,
    chain_no_invocation_after_failure [JSVal.num 1] _ _ (by decide) 2
      (by decide)⟩

/-- C3: when some step fails, the outcome is a rejection carrying
exactly the one error value of the earliest failing step (the `Except`
outcome carries no partial result list). -/
theorem chain_rejects_with_first_error (pre : List JSVal) (e : JSVal)
    (post : List JSVal) (h : ∀ v ∈ pre, v.isFail = false) :
    chainSteps (pre ++ JSVal.funcFail e :: post) = Except.error e :=
  chainSteps_first_fail pre e post h

theorem chain_rejects_with_first_error_witness :
    (∀ v ∈ [JSVal.num 1, JSVal.funcOk (JSVal.num 2)], v.isFail = false) ∧
    chainSteps ([JSVal.num 1, JSVal.funcOk (JSVal.num 2)] ++
        JSVal.funcFail (JSVal.str "bad")
          :: [JSVal.funcFail (JSVal.str "later")])
      = Except.error (JSVal.str "bad") :=
  ⟨by decide, chain_rejects_with_first_error _ _ _ (by decide)⟩

/-- C4 counterexample: a Deferred step that fails with the JS `null`
error payload makes `chain` reject with `null` itself — a nullish,
falsy value — not with the truthy sentinel: the recorded sentinel never
reaches the caller. -/
theorem chain_nullish_failure_sentinel_ce :
    chain [JSVal.funcFail JSVal.null] = Except.error JSVal.null ∧
    (JSVal.null).isNullish = true :=
  ⟨rfl, rfl⟩

/-- C4 amended: when the first failing step is a Deferred with a nullish
error payload, the truthy sentinel `true` is recorded in the run's
internal `rejection` variable, but the failure surfaced to the caller is
the original nullish error; a failed outcome is distinguishable from a
success by its rejected state, not by the truthiness of its error. -/
theorem chain_nullish_failure_amended (pre : List JSVal) (e : JSVal)
    (post : List JSVal) (h : ∀ v ∈ pre, v.isFail = false)
    (he : e.isNullish = true) :
    chainSteps (pre ++ JSVal.funcFail e :: post) = Except.error e ∧
    (chainRun (pre ++ JSVal.funcFail e :: post)).rejection
      = some (JSVal.bool true) := by
  obtain ⟨res2, hrun⟩ := chainRun_first_fail pre e post h
  constructor
  · rw [chainSteps, hrun, finalStage]
  · rw [hrun]
    simp [he]

theorem chain_nullish_failure_amended_witness :
    (∀ v ∈ ([] : List JSVal), v.isFail = false) ∧
    (JSVal.undef).isNullish = true ∧
    chainSteps ([] ++ JSVal.funcFail JSVal.undef
        :: [JSVal.funcOk (JSVal.num 5)]) = Except.error JSVal.undef ∧
    (chainRun ([] ++ JSVal.funcFail JSVal.undef
        :: [JSVal.funcOk (JSVal.num 5)])).rejection
      = some (JSVal.bool true) :=
  ⟨by decide, rfl,
    (chain_nullish_failure_amended [] JSVal.undef [JSVal.funcOk (JSVal.num 5)]
      (by decide) rfl).1,
    (chain_nullish_failure_amended [] JSVal.undef [JSVal.funcOk (JSVal.num 5)]
      (by decide) rfl).2⟩

/-- C5: supplying three steps variadically, `chain(a, b, c)`, and as a
single array argument, `chain([a, b, c])`, produce identical outcomes. -/
theorem chain_variadic_array_equiv (a b c : JSVal) :
    chain [a, b, c] = chain [JSVal.arr [a, b, c]] := by
  cases a <;> rfl

/-- C6: for an empty input sequence, `chain` fulfills with an empty
result list. -/
theorem chain_empty_ok : chain [] = Except.ok [] := rfl

/-- C7: for every sequence of Value and Deferred steps in which every
step succeeds, the result list holds each step's produced value at the
step's own input position: input order equals output order. -/
theorem chain_mixed_order_preserved (vs : List JSVal)
    (h : ∀ v ∈ vs, v.isFail = false) :
    chainSteps vs = Except.ok (vs.map JSVal.produce) :=
  chainSteps_all_ok vs h

theorem chain_mixed_order_preserved_witness :
    (∀ v ∈ [JSVal.num 1, JSVal.funcOk (JSVal.num 2), JSVal.num 3,
        JSVal.funcOk (JSVal.num 4)], v.isFail = false) ∧
    chainSteps [JSVal.num 1, JSVal.funcOk (JSVal.num 2), JSVal.num 3,
        JSVal.funcOk (JSVal.num 4)]
      = Except.ok [JSVal.num 1, JSVal.num 2, JSVal.num 3, JSVal.num 4] :=
  ⟨by decide, chain_mixed_order_preserved _ (by decide)⟩

/-- C8: a failure surfaced by `chain` on a normalized step list always
originates from a failing Deferred step present in the list, carrying
exactly the surfaced error; a plain Value step never produces one. -/
theorem chain_failure_from_deferred_only (vs : List JSVal) (e : JSVal)
    (h : chainSteps vs = Except.error e) : JSVal.funcFail e ∈ vs := by
  have hinit : chainRun vs
      = runFrom 0 ⟨Except.ok JSVal.undef, none, [], []⟩ vs := rfl
  cases hp : (chainRun vs).promise with
  | error e' =>
    have he : e' = e := by
      simp only [chainSteps, finalStage, hp, Except.error.injEq] at h
      exact h
    exact he ▸ runFrom_error_mem vs 0 JSVal.undef [] [] e'
      (by rw [← hinit]; exact hp)
  | ok x =>
    have hr : (chainRun vs).rejection = none := by
      have := runFrom_inv vs 0 ⟨Except.ok JSVal.undef, none, [], []⟩
        (fun _ _ => rfl) x (by rw [← hinit]; exact hp)
      rw [hinit]
      exact this
    simp only [chainSteps, finalStage, hp, hr] at h
    exact Except.noConfusion h

theorem chain_failure_from_deferred_only_witness :
    chainSteps [JSVal.funcFail (JSVal.str "x"), JSVal.funcOk (JSVal.num 99)]
      = Except.error (JSVal.str "x") ∧
    JSVal.funcFail (JSVal.str "x")
      ∈ [JSVal.funcFail (JSVal.str "x"), JSVal.funcOk (JSVal.num 99)] :=
  ⟨rfl, chain_failure_from_deferred_only _ _ rfl⟩

/-- C9: once a rejection has been recorded by some point of the run
(after any leading portion of the step list), it persists unchanged to
the end of the run: the first failure encountered in step order wins and
is never overwritten. -/
theorem chain_first_rejection_persists (values : List JSVal) (n : Nat)
    (w : JSVal) (h : (chainRun (values.take n)).rejection = some w) :
    (chainRun values).rejection = some w := by
  have hsplit : chainRun values
      = runFrom ((values.take n).length) (chainRun (values.take n))
          (values.drop n) := by
    have h0 := runFrom_append (values.take n) (values.drop n) 0 initState
    rw [List.take_append_drop, Nat.zero_add] at h0
    exact h0
  rw [hsplit]
  exact runFrom_rejection _ _ _ w h

theorem chain_first_rejection_persists_witness :
    (chainRun ([JSVal.funcFail (JSVal.str "a"),
        JSVal.funcFail (JSVal.str "b")].take 1)).rejection
      = some (JSVal.str "a") ∧
    (chainRun [JSVal.funcFail (JSVal.str "a"),
        JSVal.funcFail (JSVal.str "b")]).rejection
      = some (JSVal.str "a") :=
  ⟨rfl, chain_first_rejection_persists _ 1 _ rfl⟩

/-- C10: the branch of the final stage that rejects with the recorded
`rejection` value is unreachable: whenever the final success
continuation runs (the chain ends fulfilled), no rejection was recorded,
because a recorded failure keeps the chain rejected and the original
error propagates directly. -/
theorem chain_final_rejection_branch_unreachable (values : List JSVal)
    (x : JSVal) (h : (chainRun values).promise = Except.ok x) :
    (chainRun values).rejection = none :=
  runFrom_inv values 0 initState (fun _ _ => rfl) x h

theorem chain_final_rejection_branch_unreachable_witness :
    (chainRun [JSVal.num 1]).promise = Except.ok (JSVal.num 1) ∧
    (chainRun [JSVal.num 1]).rejection = none :=
  ⟨rfl, chain_final_rejection_branch_unreachable _ _ rfl⟩
